import Mathlib

/-!
Verification of the resident-feedback analysis pipeline
(`analysis_pipeline.py`): rule-based topic classification, sentiment
bucketing, enrichment, and the aggregation feeding the executive summary.

Conventions of the embedding:
* Python strings are Lean `String`s; `text.lower()` is `lowerChars`
  (character-wise ASCII lowercasing, which agrees with Python on the
  ASCII keyword material the classifier uses).
* Python's substring test `kw in text` is the boolean `substrB`.
* Polarity scores (floats in `[-1, 1]` from the external TextBlob scorer)
  are rationals `ℚ`; the bucketing thresholds `0.1` / `-0.1` are `1/10`
  and `-(1/10)`.  The bucketing logic only compares, so `ℚ` mirrors the
  float comparisons exactly at these magnitudes.
* pandas `Series.value_counts()` is `value_counts`: counts keyed in order
  of first occurrence, then stably sorted by descending count (for the at
  most eight distinct keys arising here, numpy's argsort is the pure
  insertion sort, which is stable).
* `pd.to_datetime` and the external polarity scorer are parameters
  (`parse`, `polarity`): external collaborators of the core.
* Python exceptions are `Except` errors: `indexError` models the
  `IndexError` from `.index[0]` / `.iloc[0]` on an empty Series, and
  `valueError` the `ValueError` from `idxmax` on an empty Series.
-/

/-- The eight fixed topic labels of `classify_topic`. -/
inductive TopicLabel
  | parksRecLibrary
  | sanitation
  | transportation
  | communityDevelopment
  | waterResources
  | publicSafety
  | codeEnforcement
  | generalInquiry
deriving DecidableEq

/-- The three sentiment labels of `get_sentiment`. -/
inductive SentimentLabel
  | positive
  | negative
  | neutral
deriving DecidableEq

/-- Boolean prefix test on character lists (Python `str.startswith`). -/
def prefixB : List Char → List Char → Bool
  | [], _ => true
  | _ :: _, [] => false
  | a :: as, b :: bs => a == b && prefixB as bs

/-- Boolean substring-containment test on character lists: Python's
`kw in text` for strings. -/
def substrB (kw : List Char) : List Char → Bool
  | [] => prefixB kw []
  | c :: rest => prefixB kw (c :: rest) || substrB kw rest

/-- `text.lower()` as a character list (ASCII lowering, as all keywords
are ASCII). -/
def lowerChars (s : String) : List Char :=
  s.data.map Char.toLower

/-- The ordered keyword rule table of `classify_topic`, in the source's
declaration order (the if-chain, lines 33-39). -/
def topicRules : List (TopicLabel × List String) :=
  [ (.parksRecLibrary, ["park", "playground", "library", "program", "community center"])
  , (.sanitation, ["trash", "recycling", "pickup", "sweeping"])
  , (.transportation, ["pothole", "road", "traffic", "street", "crosswalk"])
  , (.communityDevelopment, ["zoning", "permit", "construction", "license"])
  , (.waterResources, ["bill", "main break", "quality", "sewer"])
  , (.publicSafety, ["police", "fire", "officer", "emergency"])
  , (.codeEnforcement, ["yard", "noise", "vehicle"]) ]

/-- `any(kw in text for kw in keywords)` for one rule. -/
def ruleMatches (text : List Char) (rule : TopicLabel × List String) : Bool :=
  rule.2.any (fun kw => substrB kw.data text)

/-- `classify_topic`: lower the text, walk the rule chain, first match
wins, default `General Inquiry`. -/
def classify_topic (s : String) : TopicLabel :=
  match topicRules.find? (ruleMatches (lowerChars s)) with
  | some rule => rule.1
  | none => .generalInquiry

/-- The threshold bucketing of `get_sentiment` (lines 45-47), on the
polarity value. -/
def bucketPolarity (p : ℚ) : SentimentLabel :=
  if p > 1 / 10 then .positive
  else if p < -(1 / 10) then .negative
  else .neutral

/-- `get_sentiment`: delegate polarity scoring to the external scorer
`polarity`, then bucket. -/
def get_sentiment (polarity : String → ℚ) (s : String) : SentimentLabel :=
  bucketPolarity (polarity s)

/-- The eight topic labels as a list (closure set for totality). -/
def allTopicLabels : List TopicLabel :=
  [ .parksRecLibrary, .sanitation, .transportation, .communityDevelopment
  , .waterResources, .publicSafety, .codeEnforcement, .generalInquiry ]

/-- A raw input row: `timestamp` and `feedback_text` columns of the
loaded table. -/
structure FeedbackRecord where
  timestamp : String
  feedback_text : String
deriving DecidableEq

/-- A parsed date-time (result of `pd.to_datetime` on one value);
only the calendar fields the pipeline consumes. -/
structure DateTime where
  year : Nat
  month : Nat
  day : Nat
deriving DecidableEq

/-- `to_period('M')`: the calendar year-month bucket of a timestamp,
encoded as a single ordinal so chronological order is `≤` on `Nat`. -/
def monthIndex (dt : DateTime) : Nat :=
  dt.year * 12 + (dt.month - 1)

/-- One enriched row: the derived `month`, `topic` and `sentiment`
columns that every aggregate in `generate_executive_summary` reads. -/
structure EnrichedRecord where
  month : Nat
  topic : TopicLabel
  sentiment : SentimentLabel
deriving DecidableEq

/-- Failure of enrichment: `pd.to_datetime` raising on an unparseable
timestamp. -/
inductive EnrichError
  | malformedTimestamp
deriving DecidableEq

/-- `load_and_process_data` after the file read: parse every timestamp
(`pd.to_datetime` raises on any bad value, so the whole run aborts with
no partial output), then apply `classify_topic`, `get_sentiment` and
the month bucketing to every row.  `parse` is the
external timestamp parser and `polarity` the external sentiment scorer. -/
def load_and_process_data (parse : String → Option DateTime)
    (polarity : String → ℚ) :
    List FeedbackRecord → Except EnrichError (List EnrichedRecord)
  | [] => .ok []
  | row :: rest =>
    match parse row.timestamp with
    | none => .error .malformedTimestamp
    | some dt =>
      match load_and_process_data parse polarity rest with
      | .error e => .error e
      | .ok tl =>
        .ok ({ month := monthIndex dt
             , topic := classify_topic row.feedback_text
             , sentiment := get_sentiment polarity row.feedback_text } :: tl)

/-- Distinct values of a list in order of first occurrence — the key
order a pandas hashtable produces before `value_counts` sorts. -/
def firstOccurrences {α : Type} [DecidableEq α] : List α → List α
  | [] => []
  | a :: l => a :: (firstOccurrences l).filter (fun b => b ≠ a)

/-- `Series.value_counts()`: count each distinct value (keys in first
occurrence order), then sort by descending count; the sort is stable, so
equal counts stay in first-occurrence order. -/
def value_counts {α : Type} [DecidableEq α] (l : List α) : List (α × Nat) :=
  List.insertionSort (fun p q => q.2 ≤ p.2)
    ((firstOccurrences l).map (fun a => (a, l.countP (fun b => b = a))))

/-- `df['topic'].value_counts()` (line 125). -/
def topic_value_counts (recs : List EnrichedRecord) : List (TopicLabel × Nat) :=
  value_counts (recs.map (·.topic))

/-- `topic_counts.index[0]` made fallible: the most common topic, if the
ranking is non-empty. -/
def most_common_topic (recs : List EnrichedRecord) : Option TopicLabel :=
  (topic_value_counts recs).head?.map Prod.fst

/-- `df['sentiment'].value_counts(normalize=True)` (line 128, before the
`* 100` display scaling): per-label proportion of total records. -/
def sentiment_value_counts (recs : List EnrichedRecord) : List (SentimentLabel × ℚ) :=
  (value_counts (recs.map (·.sentiment))).map
    (fun p => (p.1, (p.2 : ℚ) / (recs.length : ℚ)))

/-- `df[df['sentiment'] == 'Negative']['topic'].value_counts()`
(line 131): the negative-by-topic ranking. -/
def neg_sentiment_by_topic (recs : List EnrichedRecord) : List (TopicLabel × Nat) :=
  value_counts ((recs.filter (fun r => r.sentiment = .negative)).map (·.topic))

/-- Number of records falling in month bucket `m`. -/
def monthCount (recs : List EnrichedRecord) (m : Nat) : Nat :=
  recs.countP (fun r => r.month = m)

/-- Minimum of a non-empty `Nat` list (pandas resample range start). -/
def listMin : List Nat → Option Nat
  | [] => none
  | a :: l => some (l.foldl Nat.min a)

/-- Maximum of a non-empty `Nat` list (pandas resample range end). -/
def listMax : List Nat → Option Nat
  | [] => none
  | a :: l => some (l.foldl Nat.max a)

/-- `df.set_index('timestamp').resample('M').size()` (line 135): one
bucket per calendar month from the earliest to the latest record month
(gap months present with count `0`), in chronological order. -/
def monthly_volume (recs : List EnrichedRecord) : List (Nat × Nat) :=
  match listMin (recs.map (·.month)), listMax (recs.map (·.month)) with
  | some a, some b =>
    ((List.range (b + 1 - a)).map (fun k => a + k)).map
      (fun m => (m, monthCount recs m))
  | _, _ => []

/-- One step of `Series.idxmax`: keep the current best, replace only on
a strictly larger value (so the first maximum wins). -/
def idxmaxStep (acc : Option (Nat × Nat)) (p : Nat × Nat) : Option (Nat × Nat) :=
  match acc with
  | none => some p
  | some q => if q.2 < p.2 then some p else some q

/-- `Series.idxmax()`: index of the first occurrence of the maximum
value; `none` models the `ValueError` on an empty series. -/
def idxmax (l : List (Nat × Nat)) : Option Nat :=
  (l.foldl idxmaxStep none).map Prod.fst

/-- `monthly_volume.idxmax()` (line 136): the peak month. -/
def peak_month (recs : List EnrichedRecord) : Option Nat :=
  idxmax (monthly_volume recs)

/-- Runtime failures of `generate_executive_summary`: `indexError` is
Python's `IndexError` from `.index[0]` / `.iloc[0]` on an empty Series;
`valueError` is the `ValueError` of `idxmax` on an empty Series.
`emptyDataset` is modelled from the spec: the dedicated `EmptyDataset`
error §7 prescribes for aggregation of an empty record set; the source
has no such error and never raises it. -/
inductive AggError
  | indexError
  | valueError
  | emptyDataset
deriving DecidableEq

/-- The scalar fields `generate_executive_summary` computes and
substitutes into its findings/recommendations templates (the narrative
strings are pure template substitution of exactly these values). -/
structure SummaryStats where
  total_comments : Nat
  most_common : TopicLabel
  overall_positive : ℚ
  worst_topic : TopicLabel
  worst_topic_count : Nat
  peak : Nat
deriving DecidableEq

/-- `generate_executive_summary` (lines 120-136): the aggregation pass,
with each fallible pandas access made explicit in the order the source
performs it. -/
def generate_executive_summary (recs : List EnrichedRecord) :
    Except AggError SummaryStats :=
  let total := recs.length
  match (topic_value_counts recs).head? with
  | none => .error .indexError
  | some mc =>
    let overallPos := (((sentiment_value_counts recs).find?
      (fun p => p.1 = .positive)).map Prod.snd).getD 0 * 100
    match (neg_sentiment_by_topic recs).head? with
    | none => .error .indexError
    | some wt =>
      match peak_month recs with
      | none => .error .valueError
      | some pm =>
        .ok { total_comments := total
            , most_common := mc.1
            , overall_positive := overallPos
            , worst_topic := wt.1
            , worst_topic_count := wt.2
            , peak := pm }

/-- A concrete enriched record set with a tie below the top of the
ranking (counts: Transportation 2, Parks 1, Sanitation 1), used to
instantiate the topic-ranking theorem. -/
def rankingWitnessRecs : List EnrichedRecord :=
  [ { month := 0, topic := .transportation, sentiment := .neutral }
  , { month := 0, topic := .parksRecLibrary, sentiment := .neutral }
  , { month := 1, topic := .transportation, sentiment := .neutral }
  , { month := 1, topic := .sanitation, sentiment := .neutral } ]

/-! ### Helper lemmas -/

theorem prefixB_append (l v : List Char) : prefixB l (l ++ v) = true := by
  induction l with
  | nil => rfl
  | cons a as ih => simp [prefixB, ih]

theorem substrB_of_prefixB (kw t : List Char) (h : prefixB kw t = true) :
    substrB kw t = true := by
  cases t with
  | nil => simpa [substrB] using h
  | cons c rest => simp [substrB, h]

theorem substrB_embed (kw u v : List Char) : substrB kw (u ++ kw ++ v) = true := by
  induction u with
  | nil => exact substrB_of_prefixB _ _ (prefixB_append kw v)
  | cons c u ih =>
    rw [List.append_assoc] at ih
    simp [substrB, ih]

theorem find?_of_earlier_none {α : Type} (p : α → Bool) :
    ∀ (l : List α) (i : Nat) (a : α), l[i]? = some a → p a = true →
      (∀ j b, j < i → l[j]? = some b → p b = false) → l.find? p = some a := by
  intro l
  induction l with
  | nil => intro i a ha; simp at ha
  | cons x t ih =>
    intro i a ha hpa hearlier
    cases i with
    | zero =>
      simp at ha
      subst ha
      simp [List.find?_cons, hpa]
    | succ n =>
      have hx : p x = false := hearlier 0 x (Nat.succ_pos n) (by simp)
      simp at ha
      rw [List.find?_cons, hx]
      exact ih n a ha hpa
        (fun j b hj hjb => hearlier (j + 1) b (Nat.succ_lt_succ hj) (by simpa using hjb))

theorem mem_firstOccurrences {α : Type} [DecidableEq α] (l : List α) (a : α) :
    a ∈ firstOccurrences l ↔ a ∈ l := by
  induction l with
  | nil => simp [firstOccurrences]
  | cons x t ih =>
    by_cases hax : a = x
    · subst hax; simp [firstOccurrences]
    · simp [firstOccurrences, List.mem_filter, ih, hax]

theorem nodup_firstOccurrences {α : Type} [DecidableEq α] (l : List α) :
    (firstOccurrences l).Nodup := by
  induction l with
  | nil => exact List.nodup_nil
  | cons x t ih =>
    refine List.Nodup.cons ?_ (List.Nodup.filter _ ih)
    intro hx
    have := (List.mem_filter.mp hx).2
    simp at this

/-- Head of a stable insertion sort for a reflexive, transitive, total
relation: it is the first element of the input dominating the whole
list, i.e. the input splits as `pre ++ p :: suf` with every element of
`pre` strictly below `p`. -/
theorem insertionSort_head_spec {α : Type} (r : α → α → Prop) [DecidableRel r]
    (hrefl : ∀ a, r a a) (htrans : ∀ a b c, r a b → r b c → r a c)
    (htot : ∀ a b, r a b ∨ r b a) :
    ∀ l : List α, l ≠ [] →
      ∃ p pre suf, l = pre ++ p :: suf ∧
        (List.insertionSort r l).head? = some p ∧
        (∀ q ∈ l, r p q) ∧ (∀ q ∈ pre, ¬ r q p) := by
  intro l
  induction l with
  | nil => intro hne; exact absurd rfl hne
  | cons a t ih =>
    intro _
    cases t with
    | nil =>
      refine ⟨a, [], [], rfl, rfl, ?_, by simp⟩
      intro q hq
      rw [List.mem_singleton.mp hq]
      exact hrefl a
    | cons b t2 =>
      obtain ⟨p, pre, suf, hdecomp, hhead, hdom, hpre⟩ := ih (by simp)
      have hsortcons : List.insertionSort r (a :: b :: t2) =
          List.orderedInsert r a (List.insertionSort r (b :: t2)) := rfl
      obtain ⟨rest, hrest⟩ : ∃ rest, List.insertionSort r (b :: t2) = p :: rest := by
        cases hs : List.insertionSort r (b :: t2) with
        | nil => rw [hs] at hhead; simp at hhead
        | cons y ys =>
          rw [hs] at hhead
          simp at hhead
          exact ⟨ys, by rw [hhead]⟩
      by_cases hr : r a p
      · refine ⟨a, [], b :: t2, rfl, ?_, ?_, by simp⟩
        · rw [hsortcons, hrest, List.orderedInsert_of_le _ _ hr]
          rfl
        · intro q hq
          rcases List.mem_cons.mp hq with hqa | hqt
          · rw [hqa]; exact hrefl a
          · exact htrans a p q hr (hdom q hqt)
      · refine ⟨p, a :: pre, suf, by rw [hdecomp]; rfl, ?_, ?_, ?_⟩
        · rw [hsortcons, hrest]
          simp only [List.orderedInsert, if_neg hr]
          rfl
        · intro q hq
          rcases List.mem_cons.mp hq with hqa | hqt
          · rw [hqa]; exact (htot a p).resolve_left hr
          · exact hdom q hqt
        · intro q hq
          rcases List.mem_cons.mp hq with hqa | hqp
          · rw [hqa]; exact hr
          · exact hpre q hqp

/-- Removing one occurrence of `x` from a duplicate-free list splits off
its `f`-term from the mapped sum. -/
theorem sum_map_extract {α : Type} [DecidableEq α] (f : α → Nat) :
    ∀ (L : List α), L.Nodup → ∀ x ∈ L,
      (L.map f).sum = f x + ((L.filter (fun b => b ≠ x)).map f).sum := by
  intro L
  induction L with
  | nil => intro _ x hx; cases hx
  | cons y t ih =>
    intro hnd x hx
    have hynt : y ∉ t := (List.nodup_cons.mp hnd).1
    have hndt : t.Nodup := (List.nodup_cons.mp hnd).2
    rcases List.mem_cons.mp hx with hxy | hxt
    · subst hxy
      have hfil : t.filter (fun b => b ≠ x) = t :=
        List.filter_eq_self.mpr (fun b hb => by
          simp only [ne_eq, decide_eq_true_eq]
          intro hbx; exact hynt (hbx ▸ hb))
      rw [List.filter_cons_of_neg (by simp), hfil]
      simp
    · have hxy : x ≠ y := fun h => hynt (h ▸ hxt)
      have hyx : (fun b => decide (b ≠ x)) y = true := by
        simp only [decide_eq_true_eq]
        exact fun h => hxy h.symm
      have ihx := ih hndt x hxt
      rw [show (y :: t).filter (fun b => b ≠ x) =
        y :: t.filter (fun b => b ≠ x) from List.filter_cons_of_pos hyx]
      simp only [List.map_cons, List.sum_cons, ihx]
      omega

/-- The counts keyed by the distinct values of `l` sum to the length of
`l` (no record is dropped or double-counted by `value_counts`). -/
theorem sum_countP_firstOccurrences {α : Type} [DecidableEq α] (l : List α) :
    ((firstOccurrences l).map (fun a => l.countP (fun b => b = a))).sum = l.length := by
  induction l with
  | nil => rfl
  | cons x t ih =>
    have hcx : ∀ a : α, (x :: t).countP (fun b => b = a) =
        t.countP (fun b => b = a) + if x = a then 1 else 0 := by
      intro a
      rw [List.countP_cons]
      simp
    have hmapfil : ((firstOccurrences t).filter (fun b => b ≠ x)).map
          (fun a => (x :: t).countP (fun b => b = a)) =
        ((firstOccurrences t).filter (fun b => b ≠ x)).map
          (fun a => t.countP (fun b => b = a)) := by
      refine List.map_congr_left (fun a ha => ?_)
      have hax : a ≠ x := by
        have := (List.mem_filter.mp ha).2
        simpa using this
      rw [hcx a, if_neg (fun h => hax h.symm), Nat.add_zero]
    have hFOcons : firstOccurrences (x :: t) =
        x :: (firstOccurrences t).filter (fun b => b ≠ x) := rfl
    by_cases hxt : x ∈ t
    · have hxFO : x ∈ firstOccurrences t := (mem_firstOccurrences t x).mpr hxt
      have hext := sum_map_extract (fun a => t.countP (fun b => b = a))
        (firstOccurrences t) (nodup_firstOccurrences t) x hxFO
      have hbeta : (fun a => t.countP (fun b => b = a)) x =
          t.countP (fun b => b = x) := rfl
      rw [hbeta] at hext
      rw [hFOcons, List.map_cons, List.sum_cons, hmapfil, hcx x, if_pos rfl,
        List.length_cons]
      omega
    · have hc0 : t.countP (fun b => b = x) = 0 :=
        List.countP_eq_zero.mpr (fun a ha => by
          simp only [decide_eq_true_eq]
          intro h; exact hxt (h ▸ ha))
      have hfil : (firstOccurrences t).filter (fun b => b ≠ x) = firstOccurrences t :=
        List.filter_eq_self.mpr (fun b hb => by
          simp only [ne_eq, decide_eq_true_eq]
          intro hbx
          exact hxt (hbx ▸ (mem_firstOccurrences t b).mp hb))
      rw [hFOcons, List.map_cons, List.sum_cons, hmapfil, hfil, hcx x, if_pos rfl,
        hc0, List.length_cons]
      omega

theorem sum_map_div (L : List ℚ) (c : ℚ) :
    (L.map (fun x => x / c)).sum = L.sum / c := by
  induction L with
  | nil => simp
  | cons x t ih => simp [ih, add_div]

/-- The counts in a `value_counts` result sum to the input length. -/
theorem sum_snd_value_counts {α : Type} [DecidableEq α] (l : List α) :
    ((value_counts l).map (fun p => p.2)).sum = l.length := by
  unfold value_counts
  have hperm := List.perm_insertionSort (fun p q : α × Nat => q.2 ≤ p.2)
    ((firstOccurrences l).map (fun a => (a, l.countP (fun b => b = a))))
  rw [(hperm.map (fun p : α × Nat => p.2)).sum_eq, List.map_map]
  exact sum_countP_firstOccurrences l

/-! ### Claim theorems: classifier and sentiment -/

/-- C4: `classify_topic` is total, always lands in the closed
eight-label set, and defaults to `General Inquiry` when no rule's
keyword set matches the lower-cased text. -/
theorem classify_topic_total (s : String) :
    classify_topic s ∈ allTopicLabels ∧
    ((∀ rule ∈ topicRules, ruleMatches (lowerChars s) rule = false) →
      classify_topic s = .generalInquiry) := by
  constructor
  · have h : ∀ t : TopicLabel, t ∈ allTopicLabels := by
      intro t; cases t <;> simp [allTopicLabels]
    exact h _
  · intro hnone
    unfold classify_topic
    rw [List.find?_eq_none.mpr (fun x hx => by simp [hnone x hx])]

/-- C4 witness: on a text matching no keyword the classifier returns
`General Inquiry` (and it lies in the eight-label set). -/
theorem classify_topic_total_witness :
    classify_topic "zzz" ∈ allTopicLabels ∧
    classify_topic "zzz" = TopicLabel.generalInquiry :=
  ⟨(classify_topic_total "zzz").1, (classify_topic_total "zzz").2 (by decide)⟩

/-- C5: rule dispatch is first-match-wins over the ordered rule list: if
rule `i` matches the lowered text and no earlier rule does, the result
is rule `i`'s label; in particular any text containing both "park" and
"trash" classifies as `Parks, Rec & Library` (the earlier-declared
category), never as `Public Works - Sanitation`. -/
theorem classify_first_match_wins :
    (∀ (s : String) (i : Nat) (rule : TopicLabel × List String),
        topicRules[i]? = some rule →
        ruleMatches (lowerChars s) rule = true →
        (∀ j rule2, j < i → topicRules[j]? = some rule2 →
          ruleMatches (lowerChars s) rule2 = false) →
        classify_topic s = rule.1) ∧
    (∀ s : String, substrB "park".data (lowerChars s) = true →
        substrB "trash".data (lowerChars s) = true →
        classify_topic s = .parksRecLibrary) := by
  have main : ∀ (s : String) (i : Nat) (rule : TopicLabel × List String),
      topicRules[i]? = some rule →
      ruleMatches (lowerChars s) rule = true →
      (∀ j rule2, j < i → topicRules[j]? = some rule2 →
        ruleMatches (lowerChars s) rule2 = false) →
      classify_topic s = rule.1 := by
    intro s i rule hi hmatch hearlier
    unfold classify_topic
    rw [find?_of_earlier_none _ topicRules i rule hi hmatch hearlier]
  refine ⟨main, fun s hpark _ => ?_⟩
  have h0 : ruleMatches (lowerChars s)
      (.parksRecLibrary, ["park", "playground", "library", "program", "community center"]) = true := by
    simp [ruleMatches, List.any]
    exact Or.inl hpark
  exact main s 0 _ rfl h0 (fun j rule2 hj => by omega)

/-- C5 witness: the concrete text "park trash" (containing a keyword of
each of the two first-declared categories) classifies into the
earlier-declared one. -/
theorem classify_first_match_wins_witness :
    classify_topic "park trash" = TopicLabel.parksRecLibrary :=
  classify_first_match_wins.2 "park trash" (by decide) (by decide)

/-- C6: for any polarity the external scorer returns in `[-1, 1]`, the
sentiment label follows the fixed thresholds exactly: strictly above
`1/10` is Positive, strictly below `-(1/10)` is Negative, everything
else (boundaries and zero included) is Neutral. -/
theorem get_sentiment_thresholds (polarity : String → ℚ) (s : String)
    (h1 : -1 ≤ polarity s) (h2 : polarity s ≤ 1) :
    (1 / 10 < polarity s → get_sentiment polarity s = .positive) ∧
    (polarity s < -(1 / 10) → get_sentiment polarity s = .negative) ∧
    (-(1 / 10) ≤ polarity s → polarity s ≤ 1 / 10 →
      get_sentiment polarity s = .neutral) := by
  refine ⟨fun hp => ?_, fun hn => ?_, fun hl hr => ?_⟩
  · unfold get_sentiment bucketPolarity
    rw [if_pos hp]
  · have hpos : ¬ (polarity s > 1 / 10) := by linarith
    unfold get_sentiment bucketPolarity
    rw [if_neg hpos, if_pos hn]
  · have hpos : ¬ (polarity s > 1 / 10) := by linarith
    have hneg : ¬ (polarity s < -(1 / 10)) := by linarith
    unfold get_sentiment bucketPolarity
    rw [if_neg hpos, if_neg hneg]

/-- C6 witness: concrete polarities 1/2, -1/2, 1/10, -(1/10) and 0
bucket to Positive, Negative, Neutral, Neutral, Neutral. -/
theorem get_sentiment_thresholds_witness :
    get_sentiment (fun _ => (1 : ℚ) / 2) "" = SentimentLabel.positive ∧
    get_sentiment (fun _ => -(1 : ℚ) / 2) "" = SentimentLabel.negative ∧
    get_sentiment (fun _ => (1 : ℚ) / 10) "" = SentimentLabel.neutral ∧
    get_sentiment (fun _ => -((1 : ℚ) / 10)) "" = SentimentLabel.neutral ∧
    get_sentiment (fun _ => (0 : ℚ)) "" = SentimentLabel.neutral :=
  ⟨(get_sentiment_thresholds _ "" (by norm_num) (by norm_num)).1 (by norm_num),
   (get_sentiment_thresholds _ "" (by norm_num) (by norm_num)).2.1 (by norm_num),
   (get_sentiment_thresholds _ "" (by norm_num) (by norm_num)).2.2 (by norm_num) (by norm_num),
   (get_sentiment_thresholds _ "" (by norm_num) (by norm_num)).2.2 (by norm_num) (by norm_num),
   (get_sentiment_thresholds _ "" (by norm_num) (by norm_num)).2.2 (by norm_num) (by norm_num)⟩

/-- C10: keyword matching is plain substring containment on the lowered
text, not word-boundary matching: a keyword embedded in any surrounding
characters (also mid-word) matches, so "programming" classifies like
"program" (Parks, Rec & Library) and "billboard" like "bill" (Water
Resources). -/
theorem classify_substring_semantics :
    (∀ (kw u v : List Char), substrB kw (u ++ kw ++ v) = true) ∧
    classify_topic "programming" = TopicLabel.parksRecLibrary ∧
    classify_topic "billboard" = TopicLabel.waterResources ∧
    classify_topic "program" = TopicLabel.parksRecLibrary ∧
    classify_topic "bill" = TopicLabel.waterResources :=
  ⟨substrB_embed, by decide, by decide, by decide, by decide⟩

/-! ### Claim theorems: enrichment -/

/-- C8: if any input row's timestamp fails to parse, the whole
enrichment run fails with `MalformedTimestamp` and produces no partial
enriched output. -/
theorem enrich_malformed_timestamp (parse : String → Option DateTime)
    (polarity : String → ℚ) (rows : List FeedbackRecord)
    (row : FeedbackRecord) (hmem : row ∈ rows)
    (hbad : parse row.timestamp = none) :
    load_and_process_data parse polarity rows =
      .error .malformedTimestamp := by
  induction rows with
  | nil => cases hmem
  | cons r rest ih =>
    rcases List.mem_cons.mp hmem with heq | hmem2
    · subst heq
      simp [load_and_process_data, hbad]
    · cases hp : parse r.timestamp with
      | none => simp [load_and_process_data, hp]
      | some dt => simp [load_and_process_data, hp, ih hmem2]

/-- C8 witness: a one-row input whose timestamp the parser rejects makes
the whole run fail with `MalformedTimestamp`. -/
theorem enrich_malformed_timestamp_witness :
    load_and_process_data (fun _ => none) (fun _ => 0)
      [{ timestamp := "not a date", feedback_text := "hello" }] =
      Except.error EnrichError.malformedTimestamp :=
  enrich_malformed_timestamp _ _ _
    { timestamp := "not a date", feedback_text := "hello" } (by simp) rfl

/-! ### Claim theorems: aggregation edge cases -/

instance {ε α : Type} [DecidableEq ε] [DecidableEq α] :
    DecidableEq (Except ε α)
  | .error e, .error f =>
    if h : e = f then .isTrue (by rw [h]) else .isFalse (by simp [h])
  | .error _, .ok _ => .isFalse (by simp)
  | .ok _, .error _ => .isFalse (by simp)
  | .ok a, .ok b =>
    if h : a = b then .isTrue (by rw [h]) else .isFalse (by simp [h])

/-- C1 (code bug witness): on an all-positive two-record input the
negative-by-topic ranking is empty and `generate_executive_summary`
fails with the index error from `.index[0]` — it produces no narrative
and no fallback text. -/
theorem generate_all_positive_index_error :
    generate_executive_summary
      [ { month := 0, topic := .parksRecLibrary, sentiment := .positive }
      , { month := 0, topic := .parksRecLibrary, sentiment := .positive } ] =
      Except.error AggError.indexError := by
  decide

/-- C3 counterexample: aggregation of the empty record set does not fail
with the spec's dedicated `EmptyDataset` error. -/
theorem generate_empty_not_emptyDataset :
    generate_executive_summary [] ≠ Except.error AggError.emptyDataset := by
  decide

/-- C3 amended: aggregation of the empty record set fails — with the
generic index error raised when taking the head of the empty topic
ranking — and returns no report. -/
theorem generate_empty_index_error :
    generate_executive_summary [] = Except.error AggError.indexError := by
  decide

/-! ### Claim theorems: topic ranking -/

/-- C2 counterexample: with one Sanitation record followed by one
Parks record the counts tie, yet the ranking lists Sanitation first and
the most common topic is Sanitation — not the earlier-declared
Parks, Rec & Library the claim's declaration-order tie-break predicts. -/
theorem topic_ranking_tie_counterexample :
    topic_value_counts
      [ { month := 0, topic := .sanitation, sentiment := .neutral }
      , { month := 0, topic := .parksRecLibrary, sentiment := .neutral } ] =
      [(TopicLabel.sanitation, 1), (TopicLabel.parksRecLibrary, 1)] ∧
    most_common_topic
      [ { month := 0, topic := .sanitation, sentiment := .neutral }
      , { month := 0, topic := .parksRecLibrary, sentiment := .neutral } ] =
      some TopicLabel.sanitation ∧
    TopicLabel.sanitation ≠ TopicLabel.parksRecLibrary := by
  refine ⟨by decide, by decide, by decide⟩

/-- C2 amended: the topic ranking is ordered by descending count with
correct per-topic counts, but ties are broken by the topic's first
occurrence in the record sequence (pandas `value_counts` key order plus
a stable sort), not by rule-declaration order: the reported most common
topic is the first topic, in order of first occurrence, attaining the
maximum count. -/
theorem topic_ranking_amended (recs : List EnrichedRecord) (h : recs ≠ []) :
    (topic_value_counts recs).Sorted (fun p q => q.2 ≤ p.2) ∧
    (∀ p ∈ topic_value_counts recs,
      p.2 = (recs.map (·.topic)).countP (fun b => b = p.1)) ∧
    ((topic_value_counts recs).map Prod.fst).Perm
      (firstOccurrences (recs.map (·.topic))) ∧
    (∀ t1 t2 : TopicLabel,
      (recs.map (·.topic)).countP (fun b => b = t1) =
        (recs.map (·.topic)).countP (fun b => b = t2) →
      [t1, t2].Sublist (firstOccurrences (recs.map (·.topic))) →
      [(t1, (recs.map (·.topic)).countP (fun b => b = t1)),
       (t2, (recs.map (·.topic)).countP (fun b => b = t2))].Sublist
        (topic_value_counts recs)) ∧
    ∃ t0 pre suf,
      most_common_topic recs = some t0 ∧
      firstOccurrences (recs.map (·.topic)) = pre ++ t0 :: suf ∧
      (∀ t : TopicLabel, (recs.map (·.topic)).countP (fun b => b = t) ≤
        (recs.map (·.topic)).countP (fun b => b = t0)) ∧
      (∀ t ∈ pre, (recs.map (·.topic)).countP (fun b => b = t) <
        (recs.map (·.topic)).countP (fun b => b = t0)) := by
  classical
  set tl := recs.map (·.topic) with htl
  set cnt := fun a : TopicLabel => tl.countP (fun b => b = a) with hcnt
  set M := (firstOccurrences tl).map (fun a => (a, cnt a)) with hM
  have hvc : topic_value_counts recs =
      List.insertionSort (fun p q : TopicLabel × Nat => q.2 ≤ p.2) M := rfl
  have hcorrect : ∀ p ∈ topic_value_counts recs, p.2 = cnt p.1 := by
    intro p hp
    rw [hvc] at hp
    have hpM : p ∈ M := (List.mem_insertionSort _).mp hp
    obtain ⟨a, _, hap⟩ := List.mem_map.mp hpM
    rw [← hap]
  refine ⟨?_, hcorrect, ?_, ?_, ?_⟩
  · rw [hvc]
    haveI : IsTotal (TopicLabel × Nat) (fun p q => q.2 ≤ p.2) :=
      ⟨fun a b => Nat.le_total b.2 a.2⟩
    haveI : IsTrans (TopicLabel × Nat) (fun p q => q.2 ≤ p.2) :=
      ⟨fun _ _ _ hab hbc => Nat.le_trans hbc hab⟩
    exact List.sorted_insertionSort _ M
  · rw [hvc, hM]
    have hp1 := (List.perm_insertionSort
      (fun p q : TopicLabel × Nat => q.2 ≤ p.2)
      ((firstOccurrences tl).map (fun a => (a, cnt a)))).map Prod.fst
    refine hp1.trans ?_
    rw [List.map_map]
    have hid : (Prod.fst ∘ fun a : TopicLabel => (a, cnt a)) = fun a => a := rfl
    rw [hid, List.map_id']
  · intro t1 t2 hceq hsub
    have hsubM : List.Sublist [(t1, cnt t1), (t2, cnt t2)] M := by
      rw [hM]
      exact hsub.map (fun a => (a, cnt a))
    have hr : cnt t2 ≤ cnt t1 := Nat.le_of_eq hceq.symm
    rw [hvc]
    exact List.pair_sublist_insertionSort hr hsubM
  · have hMne : M ≠ [] := by
      rw [hM, htl]
      cases recs with
      | nil => exact absurd rfl h
      | cons r rest => simp [firstOccurrences]
    obtain ⟨p, preM, sufM, hdecompM, hhead, hdom, hpre⟩ :=
      insertionSort_head_spec (fun p q : TopicLabel × Nat => q.2 ≤ p.2)
        (fun a => Nat.le_refl a.2)
        (fun _ _ _ hab hbc => Nat.le_trans hbc hab)
        (fun a b => Nat.le_total b.2 a.2) M hMne
    have hpM : p ∈ M := by
      rw [hdecompM]
      exact List.mem_append_right _ (List.mem_cons_self _ _)
    rw [hM] at hdecompM
    obtain ⟨pre, rest1, hFOsplit, hpremap, hrest1⟩ :=
      List.map_eq_append_iff.mp hdecompM
    obtain ⟨t0, suf, hrest1split, ht0, hsufmap⟩ :=
      List.map_eq_cons_iff.mp hrest1
    have ht0p : t0 = p.1 := by rw [← ht0]
    have hcntt0 : cnt t0 = p.2 := by rw [← ht0]
    refine ⟨t0, pre, suf, ?_, by rw [hFOsplit, hrest1split], ?_, ?_⟩
    · unfold most_common_topic
      rw [hvc, hhead]
      simp [ht0p]
    · intro t
      by_cases htm : t ∈ tl
      · have htM : (t, cnt t) ∈ M :=
          List.mem_map_of_mem _ ((mem_firstOccurrences tl t).mpr htm)
        have hle : cnt t ≤ cnt t0 := by
          rw [hcntt0]
          exact hdom _ htM
        exact hle
      · have h0 : cnt t = 0 :=
          List.countP_eq_zero.mpr (fun b hb => by
            simp only [decide_eq_true_eq]
            intro hbt; exact htm (hbt ▸ hb))
        exact le_of_eq_of_le h0 (Nat.zero_le _)
    · intro t htpre
      have htM : (t, cnt t) ∈ preM := by
        rw [← hpremap]
        exact List.mem_map_of_mem _ htpre
      have hlt : cnt t < cnt t0 := by
        rw [hcntt0]
        exact Nat.lt_of_not_le (hpre _ htM)
      exact hlt

/-- C2 amended witness: on a concrete four-record set (with a tie below
the top of the ranking) the ranking is sorted descending with correct
counts, its topics are exactly the distinct topics, every tied pair
keeps first-occurrence order, and the most common topic is the first
maximal topic in first-occurrence order. -/
theorem topic_ranking_amended_witness :
    (topic_value_counts rankingWitnessRecs).Sorted (fun p q => q.2 ≤ p.2) ∧
    (∀ p ∈ topic_value_counts rankingWitnessRecs,
      p.2 = (rankingWitnessRecs.map (·.topic)).countP (fun b => b = p.1)) ∧
    ((topic_value_counts rankingWitnessRecs).map Prod.fst).Perm
      (firstOccurrences (rankingWitnessRecs.map (·.topic))) ∧
    (∀ t1 t2 : TopicLabel,
      (rankingWitnessRecs.map (·.topic)).countP (fun b => b = t1) =
        (rankingWitnessRecs.map (·.topic)).countP (fun b => b = t2) →
      [t1, t2].Sublist (firstOccurrences (rankingWitnessRecs.map (·.topic))) →
      [(t1, (rankingWitnessRecs.map (·.topic)).countP (fun b => b = t1)),
       (t2, (rankingWitnessRecs.map (·.topic)).countP (fun b => b = t2))].Sublist
        (topic_value_counts rankingWitnessRecs)) ∧
    ∃ t0 pre suf,
      most_common_topic rankingWitnessRecs = some t0 ∧
      firstOccurrences (rankingWitnessRecs.map (·.topic)) = pre ++ t0 :: suf ∧
      (∀ t : TopicLabel, (rankingWitnessRecs.map (·.topic)).countP (fun b => b = t) ≤
        (rankingWitnessRecs.map (·.topic)).countP (fun b => b = t0)) ∧
      (∀ t ∈ pre, (rankingWitnessRecs.map (·.topic)).countP (fun b => b = t) <
        (rankingWitnessRecs.map (·.topic)).countP (fun b => b = t0)) :=
  topic_ranking_amended rankingWitnessRecs (by simp [rankingWitnessRecs])

/-! ### Peak-month lemmas -/

theorem foldl_min_spec : ∀ (l : List Nat) (x : Nat),
    l.foldl Nat.min x ≤ x ∧ (∀ y ∈ l, l.foldl Nat.min x ≤ y) ∧
      (l.foldl Nat.min x = x ∨ l.foldl Nat.min x ∈ l) := by
  intro l
  induction l with
  | nil => intro x; exact ⟨Nat.le_refl x, by simp, Or.inl rfl⟩
  | cons y t ih =>
    intro x
    have h := ih (Nat.min x y)
    rw [List.foldl_cons]
    refine ⟨Nat.le_trans h.1 (Nat.min_le_left x y), ?_, ?_⟩
    · intro z hz
      rcases List.mem_cons.mp hz with hzy | hzt
      · rw [hzy]
        exact Nat.le_trans h.1 (Nat.min_le_right x y)
      · exact h.2.1 z hzt
    · rcases h.2.2 with heq | hmem
      · rw [heq]
        by_cases hc : x ≤ y
        · exact Or.inl (by simp [Nat.min_def, hc])
        · right
          have hm : Nat.min x y = y := by simp [Nat.min_def, hc]
          rw [hm]
          exact List.mem_cons_self y t
      · exact Or.inr (List.mem_cons_of_mem y hmem)

theorem foldl_max_spec : ∀ (l : List Nat) (x : Nat),
    x ≤ l.foldl Nat.max x ∧ (∀ y ∈ l, y ≤ l.foldl Nat.max x) ∧
      (l.foldl Nat.max x = x ∨ l.foldl Nat.max x ∈ l) := by
  intro l
  induction l with
  | nil => intro x; exact ⟨Nat.le_refl x, by simp, Or.inl rfl⟩
  | cons y t ih =>
    intro x
    have h := ih (Nat.max x y)
    rw [List.foldl_cons]
    refine ⟨Nat.le_trans (Nat.le_max_left x y) h.1, ?_, ?_⟩
    · intro z hz
      rcases List.mem_cons.mp hz with hzy | hzt
      · rw [hzy]
        exact Nat.le_trans (Nat.le_max_right x y) h.1
      · exact h.2.1 z hzt
    · rcases h.2.2 with heq | hmem
      · rw [heq]
        by_cases hc : x ≤ y
        · right
          have hm : Nat.max x y = y := by simp [Nat.max_def, hc]
          rw [hm]
          exact List.mem_cons_self y t
        · exact Or.inl (by simp [Nat.max_def, hc])
      · exact Or.inr (List.mem_cons_of_mem y hmem)

/-- Invariant of the `idxmax` fold over a list whose keys are strictly
increasing and all above the accumulator's key: the result dominates all
values, any strictly earlier key has a strictly smaller value, and the
key never decreases. -/
theorem idxmax_go : ∀ (l : List (Nat × Nat)) (q : Nat × Nat),
    (∀ p ∈ l, q.1 < p.1) → l.Pairwise (fun p p2 => p.1 < p2.1) →
    ∃ res, l.foldl idxmaxStep (some q) = some res ∧
      (res = q ∨ res ∈ l) ∧ q.2 ≤ res.2 ∧ q.1 ≤ res.1 ∧
      (∀ p ∈ l, p.2 ≤ res.2) ∧
      (∀ p ∈ l, p.1 < res.1 → p.2 < res.2) ∧
      (q.1 < res.1 → q.2 < res.2) := by
  intro l
  induction l with
  | nil =>
    intro q _ _
    exact ⟨q, rfl, Or.inl rfl, Nat.le_refl _, Nat.le_refl _, by simp, by simp,
      fun hlt => absurd hlt (Nat.lt_irrefl _)⟩
  | cons a t ih =>
    intro q hq hpair
    have hqa : q.1 < a.1 := hq a (List.mem_cons_self a t)
    have hta : ∀ p ∈ t, a.1 < p.1 := (List.pairwise_cons.mp hpair).1
    have htpair : t.Pairwise (fun p p2 => p.1 < p2.1) :=
      (List.pairwise_cons.mp hpair).2
    rw [List.foldl_cons]
    by_cases hlt : q.2 < a.2
    · have hstep : idxmaxStep (some q) a = some a := by
        simp [idxmaxStep, hlt]
      rw [hstep]
      obtain ⟨res, hfold, hmem, hv, hk, hall, hfirst, hqstrict⟩ := ih a hta htpair
      refine ⟨res, hfold, ?_, ?_, ?_, ?_, ?_, ?_⟩
      · rcases hmem with h1 | h1
        · exact Or.inr (h1 ▸ List.mem_cons_self a t)
        · exact Or.inr (List.mem_cons_of_mem a h1)
      · exact Nat.le_trans (Nat.le_of_lt hlt) hv
      · exact Nat.le_trans (Nat.le_of_lt hqa) hk
      · intro p hp
        rcases List.mem_cons.mp hp with hpa | hpt
        · exact hpa ▸ hv
        · exact hall p hpt
      · intro p hp hpk
        rcases List.mem_cons.mp hp with hpa | hpt
        · exact hpa ▸ hqstrict (hpa ▸ hpk)
        · exact hfirst p hpt hpk
      · intro _
        exact Nat.lt_of_lt_of_le hlt hv
    · have hstep : idxmaxStep (some q) a = some q := by
        simp [idxmaxStep, hlt]
      rw [hstep]
      have hle : a.2 ≤ q.2 := Nat.le_of_not_lt hlt
      obtain ⟨res, hfold, hmem, hv, hk, hall, hfirst, hqstrict⟩ :=
        ih q (fun p hp => hq p (List.mem_cons_of_mem a hp)) htpair
      refine ⟨res, hfold, ?_, hv, hk, ?_, ?_, hqstrict⟩
      · rcases hmem with h1 | h1
        · exact Or.inl h1
        · exact Or.inr (List.mem_cons_of_mem a h1)
      · intro p hp
        rcases List.mem_cons.mp hp with hpa | hpt
        · exact hpa ▸ Nat.le_trans hle hv
        · exact hall p hpt
      · intro p hp hpk
        rcases List.mem_cons.mp hp with hpa | hpt
        · have hq1 : q.1 < res.1 := Nat.lt_trans hqa (hpa ▸ hpk)
          exact Nat.lt_of_le_of_lt (hpa ▸ hle) (hqstrict hq1)
        · exact hfirst p hpt hpk

/-! ### Claim theorems: peak month -/

/-- C7: for a non-empty enriched record set the selected peak month is a
month bucket of maximal record count, attained by some record, and among
month buckets sharing the maximal count it is the chronologically
earliest. -/
theorem peak_month_spec (recs : List EnrichedRecord) (h : recs ≠ []) :
    ∃ m, peak_month recs = some m ∧
      (∃ r ∈ recs, r.month = m) ∧
      (∀ m2, monthCount recs m2 ≤ monthCount recs m) ∧
      (∀ m2, monthCount recs m2 = monthCount recs m → m ≤ m2) := by
  classical
  obtain ⟨r0, rest, hrecs⟩ := List.exists_cons_of_ne_nil h
  set months := recs.map (·.month) with hmonths
  have hmne : months ≠ [] := by
    rw [hmonths, hrecs]; simp
  obtain ⟨m0, mrest, hmcons⟩ := List.exists_cons_of_ne_nil hmne
  have hminspec := foldl_min_spec mrest m0
  have hmaxspec := foldl_max_spec mrest m0
  set a := mrest.foldl Nat.min m0 with ha
  set b := mrest.foldl Nat.max m0 with hb
  have hmin : listMin months = some a := by rw [hmcons]; rfl
  have hmax : listMax months = some b := by rw [hmcons]; rfl
  have hamem : a ∈ months := by
    rw [hmcons]
    rcases hminspec.2.2 with heq | hmem
    · exact heq ▸ List.mem_cons_self m0 mrest
    · exact List.mem_cons_of_mem m0 hmem
  have hble : ∀ y ∈ months, a ≤ y ∧ y ≤ b := by
    intro y hy
    rw [hmcons] at hy
    rcases List.mem_cons.mp hy with hy0 | hyt
    · exact ⟨hy0 ▸ hminspec.1, hy0 ▸ hmaxspec.1⟩
    · exact ⟨hminspec.2.1 y hyt, hmaxspec.2.1 y hyt⟩
  have hab : a ≤ b := (hble m0 (by rw [hmcons]; exact List.mem_cons_self m0 mrest)).1.trans
    (hble m0 (by rw [hmcons]; exact List.mem_cons_self m0 mrest)).2
  -- the key list and the bucket list
  set keys := (List.range (b + 1 - a)).map (fun k => a + k) with hkeys
  set mv := keys.map (fun m => (m, monthCount recs m)) with hmv
  have hmveq : monthly_volume recs = mv := by
    rw [monthly_volume, ← hmonths, hmin, hmax]
  have hkeymem : ∀ m : Nat, a ≤ m → m ≤ b → (m, monthCount recs m) ∈ mv := by
    intro m h1 h2
    have : m ∈ keys := by
      rw [hkeys]
      refine List.mem_map.mpr ⟨m - a, List.mem_range.mpr (by omega), by omega⟩
    exact List.mem_map_of_mem _ this
  have hmonthmem : ∀ m : Nat, 0 < monthCount recs m → a ≤ m ∧ m ≤ b := by
    intro m hpos
    obtain ⟨r, hr, hrm⟩ := List.countP_pos_iff.mp hpos
    have : m ∈ months := by
      rw [hmonths]
      exact List.mem_map.mpr ⟨r, hr, by simpa using hrm⟩
    exact hble m this
  have hmvcount : ∀ p ∈ mv, p.2 = monthCount recs p.1 := by
    intro p hp
    rw [hmv] at hp
    obtain ⟨m, _, hmp⟩ := List.mem_map.mp hp
    rw [← hmp]
  have hkeypair : keys.Pairwise (fun m m2 => m < m2) := by
    rw [hkeys]
    refine List.Pairwise.map _ (fun x y (hxy : x < y) => ?_) (List.pairwise_lt_range _)
    omega
  have hmvpair : mv.Pairwise (fun p p2 => p.1 < p2.1) := by
    rw [hmv]
    exact List.Pairwise.map _ (fun x y (hxy : x < y) => hxy) hkeypair
  have hmvne : mv ≠ [] := by
    have hlen : 0 < mv.length := by
      rw [hmv, hkeys]
      simp only [List.length_map, List.length_range]
      omega
    exact List.length_pos.mp hlen
  obtain ⟨p0, mtl, hmvcons⟩ := List.exists_cons_of_ne_nil hmvne
  have hp0mem : p0 ∈ mv := hmvcons ▸ List.mem_cons_self p0 mtl
  have hgo := idxmax_go mtl p0
    (by
      have := hmvcons ▸ hmvpair
      exact (List.pairwise_cons.mp this).1)
    (by
      have := hmvcons ▸ hmvpair
      exact (List.pairwise_cons.mp this).2)
  obtain ⟨res, hfold, hmem, hv, hk, hall, hfirst, hqstrict⟩ := hgo
  have hresmem : res ∈ mv := by
    rcases hmem with h1 | h1
    · exact h1 ▸ hp0mem
    · exact hmvcons ▸ List.mem_cons_of_mem p0 h1
  have hrescount : res.2 = monthCount recs res.1 := hmvcount res hresmem
  have halldom : ∀ p ∈ mv, p.2 ≤ res.2 := by
    intro p hp
    rw [hmvcons] at hp
    rcases List.mem_cons.mp hp with hp0 | hpt
    · exact hp0 ▸ hv
    · exact hall p hpt
  have hallfirst : ∀ p ∈ mv, p.1 < res.1 → p.2 < res.2 := by
    intro p hp
    rw [hmvcons] at hp
    rcases List.mem_cons.mp hp with hp0 | hpt
    · intro hlt
      rw [hp0] at hlt ⊢
      exact hqstrict hlt
    · exact hfirst p hpt
  have hpeak : peak_month recs = some res.1 := by
    show idxmax (monthly_volume recs) = some res.1
    rw [hmveq, hmvcons]
    show ((p0 :: mtl).foldl idxmaxStep none).map Prod.fst = some res.1
    rw [List.foldl_cons]
    have hstep0 : idxmaxStep none p0 = some p0 := rfl
    rw [hstep0, hfold]
    rfl
  -- the bucket of `a` witnesses a strictly positive maximal count
  have hamonth : 0 < monthCount recs a := by
    rw [hmonths] at hamem
    obtain ⟨r, hr, hra⟩ := List.mem_map.mp hamem
    exact List.countP_pos_iff.mpr ⟨r, hr, by simpa using hra⟩
  have hApos : 0 < res.2 := by
    have h4 : monthCount recs a ≤ res.2 := halldom _ (hkeymem a (Nat.le_refl a) hab)
    omega
  refine ⟨res.1, hpeak, ?_, ?_, ?_⟩
  · have : 0 < monthCount recs res.1 := hrescount ▸ hApos
    obtain ⟨r, hr, hrm⟩ := List.countP_pos_iff.mp this
    exact ⟨r, hr, by simpa using hrm⟩
  · intro m2
    by_cases hpos : 0 < monthCount recs m2
    · obtain ⟨h1, h2⟩ := hmonthmem m2 hpos
      have h3 : monthCount recs m2 ≤ res.2 := halldom _ (hkeymem m2 h1 h2)
      omega
    · omega
  · intro m2 heqc
    by_cases hpos : 0 < monthCount recs m2
    · obtain ⟨h1, h2⟩ := hmonthmem m2 hpos
      by_contra hlt
      push_neg at hlt
      have h3 : monthCount recs m2 < res.2 := hallfirst _ (hkeymem m2 h1 h2) hlt
      omega
    · omega

/-- C7 witness: the peak-month characterization instantiated at a
concrete two-record, two-month set. -/
theorem peak_month_spec_witness :
    ∃ m, peak_month
      [ { month := 5, topic := .parksRecLibrary, sentiment := .neutral }
      , { month := 7, topic := .sanitation, sentiment := .negative } ] = some m ∧
      (∃ r ∈ ([ { month := 5, topic := .parksRecLibrary, sentiment := .neutral }
      , { month := 7, topic := .sanitation, sentiment := .negative } ] :
        List EnrichedRecord), r.month = m) ∧
      (∀ m2, monthCount
        [ { month := 5, topic := .parksRecLibrary, sentiment := .neutral }
        , { month := 7, topic := .sanitation, sentiment := .negative } ] m2 ≤
        monthCount
        [ { month := 5, topic := .parksRecLibrary, sentiment := .neutral }
        , { month := 7, topic := .sanitation, sentiment := .negative } ] m) ∧
      (∀ m2, monthCount
        [ { month := 5, topic := .parksRecLibrary, sentiment := .neutral }
        , { month := 7, topic := .sanitation, sentiment := .negative } ] m2 =
        monthCount
        [ { month := 5, topic := .parksRecLibrary, sentiment := .neutral }
        , { month := 7, topic := .sanitation, sentiment := .negative } ] m → m ≤ m2) :=
  peak_month_spec _ (by simp)

/-! ### Claim theorems: sentiment proportions -/

/-- C9: for a non-empty enriched record set the per-label sentiment
proportions produced by the normalized `value_counts` sum to exactly 1,
hence in particular to 1 within the `1e-9` tolerance. -/
theorem sentiment_proportions_sum (recs : List EnrichedRecord) (h : recs ≠ []) :
    ((sentiment_value_counts recs).map Prod.snd).sum = 1 ∧
    |((sentiment_value_counts recs).map Prod.snd).sum - 1| ≤ 1 / 1000000000 := by
  have hlen : (recs.length : ℚ) ≠ 0 := by
    have := List.length_pos.mpr h
    exact_mod_cast Nat.pos_iff_ne_zero.mp this
  have hmain : ((sentiment_value_counts recs).map Prod.snd).sum = 1 := by
    have key : ((sentiment_value_counts recs).map Prod.snd).sum =
        (((value_counts (recs.map (·.sentiment))).map (fun p => p.2)).map
          (fun c : Nat => (c : ℚ))).sum / (recs.length : ℚ) := by
      unfold sentiment_value_counts
      rw [List.map_map, List.map_map, ← sum_map_div, List.map_map]
      rfl
    rw [key, ← Nat.cast_list_sum, sum_snd_value_counts, List.length_map]
    exact div_self hlen
  exact ⟨hmain, by rw [hmain]; norm_num⟩

/-- C9 witness: a concrete two-record set has proportions summing to 1
within tolerance. -/
theorem sentiment_proportions_sum_witness :
    ((sentiment_value_counts
      [ { month := 0, topic := .parksRecLibrary, sentiment := .positive }
      , { month := 1, topic := .sanitation, sentiment := .negative } ]).map
        Prod.snd).sum = 1 ∧
    |((sentiment_value_counts
      [ { month := 0, topic := .parksRecLibrary, sentiment := .positive }
      , { month := 1, topic := .sanitation, sentiment := .negative } ]).map
        Prod.snd).sum - 1| ≤ 1 / 1000000000 :=
  sentiment_proportions_sum _ (by simp)
